import Mathlib

/-!
Shallow embedding of `src/server/inotify-helper.c` (the inotify subscription
registry of gamin).

Modelling choices:

* A subscription (`ih_sub_t *`) is identified by a `Nat` id; its immutable
  attributes (`dirname`, `filename`, `usersubdata`) live in `SubInfo`.
  Its mutable `cancelled` flag lives in the registry state, as the set of
  ids whose flag is set.

* The module's globals (`sub_list`, `initialized`, the `static` local
  `result` of `ih_startup`, `user_ecb`, `user_fcb`) are fields of
  `IHState`.  The state owned by the two external collaborators (the watch
  backend of inotify-path.c and the missing-path scanner of
  inotify-missing.c) is modelled from the spec as two tracking sets
  `ipWatched` and `imTracked` (set semantics: `track`/`untrack`,
  `start_watching`/`stop_watching`).  `freed` records ids passed to
  `ih_sub_free`.

* Every operation is translated to a function that returns the list of
  `IHAction`s it performs, in program order; assertion failures
  (`g_assert`) are `none`.  `runActs` folds the actions over a state, so
  "the operation performs no side effects" is literally "its action trace
  is empty".  Calls to the user callbacks and to the external collaborators
  appear in the trace, so ordering claims are claims about the trace.

* All functions take the results of external calls (`ip_start_watching`
  success, `g_file_test` existence) as explicit arguments; the C obtains
  them from the environment.  The `callerdata` closure argument of the
  foreach functions is folded into the predicate.
-/

/-- Immutable attributes of one subscription (`ih_sub_t` fields `dirname`,
`filename`, `usersubdata`; `pathname` is used by the C only in a debug
message and is omitted). -/
structure SubInfo where
  dirname : String
  filename : Option String
  usersubdata : Nat
deriving DecidableEq

/-- A watch-backend event (`ik_event_t` fields read by this unit: `name`,
`mask`). -/
structure IKEvent where
  name : Option String
  mask : Nat
deriving DecidableEq

/-- One primitive step performed by an operation of the unit: a mutation of
the module's own globals, a call into an external collaborator, or a call of
a user callback.  Traces of these actions are the observable behaviour. -/
inductive IHAction where
  | ipStartup (ok : Bool)
  | imStartup
  | idStartup
  | setResult (b : Bool)
  | setInitialized
  | setCallbacks (ecb fcb : Nat)
  | ipStartWatching (sub : Nat) (ok : Bool)
  | ipStopWatching (sub : Nat)
  | imAdd (sub : Nat)
  | imRm (sub : Nat)
  | setCancelled (sub : Nat)
  | listPrepend (sub : Nat)
  | listRemove (sub : Nat)
  | subFree (sub : Nat)
  | visit (sub : Nat) (res : Bool)
  | callEcb (sub : Nat) (path : String) (mask : Nat) (data : Nat)
  | callFcb (sub : Nat) (path : String) (data : Nat)
deriving DecidableEq

/-- The registry state: the C file's globals, the per-subscription
`cancelled` flags, and (modelled from the spec) the tracking sets of the two
external collaborators plus the set of freed subscriptions.  `admitted` is a
ghost field recording every id that was ever inserted into `sub_list`; it
lets invariants quantify over "every subscription of the registry". -/
structure IHState where
  sub_list : List Nat
  cancelled : List Nat
  imTracked : List Nat
  ipWatched : List Nat
  freed : List Nat
  admitted : List Nat
  initialized : Bool
  result : Bool
  user_ecb : Option Nat
  user_fcb : Option Nat
deriving DecidableEq

/-- The state before any operation ran: all globals of the C file are
statically initialized to `NULL`/`FALSE`. -/
def initState : IHState :=
  { sub_list := [], cancelled := [], imTracked := [], ipWatched := [],
    freed := [], admitted := [], initialized := false, result := false,
    user_ecb := none, user_fcb := none }

/-- Effect of one action on the state.  Actions that only call out
(`ipStartup`, `imStartup`, `idStartup`, `visit`, the user callbacks) leave
the registry state unchanged; the collaborator tracking sets are kept as
sets (`List.insert` / `List.erase`), per the spec's `track`/`untrack`
interface. -/
def applyAction (s : IHState) : IHAction → IHState
  | .ipStartup _ => s
  | .imStartup => s
  | .idStartup => s
  | .setResult b => { s with result := b }
  | .setInitialized => { s with initialized := true }
  | .setCallbacks e f => { s with user_ecb := some e, user_fcb := some f }
  | .ipStartWatching sub ok =>
      if ok then { s with ipWatched := s.ipWatched.insert sub } else s
  | .ipStopWatching sub => { s with ipWatched := s.ipWatched.erase sub }
  | .imAdd sub => { s with imTracked := s.imTracked.insert sub }
  | .imRm sub => { s with imTracked := s.imTracked.erase sub }
  | .setCancelled sub => { s with cancelled := s.cancelled.insert sub }
  | .listPrepend sub =>
      { s with sub_list := sub :: s.sub_list, admitted := s.admitted.insert sub }
  | .listRemove sub => { s with sub_list := s.sub_list.erase sub }
  | .subFree sub => { s with freed := s.freed.insert sub }
  | .visit _ _ => s
  | .callEcb _ _ _ _ => s
  | .callFcb _ _ _ => s

/-- Run a trace of actions over a state. -/
def runActs (s : IHState) (tr : List IHAction) : IHState :=
  tr.foldl applyAction s

/-- `ih_startup (ecb, fcb)`: idempotent initialization.  `ipOk` is the
result of the external `ip_startup` call.  Returns the action trace and the
`gboolean` return value. -/
def ih_startup (s : IHState) (ecb fcb : Nat) (ipOk : Bool) :
    List IHAction × Bool :=
  if s.initialized then ([], s.result)
  else if !ipOk then ([.ipStartup false, .setResult false], false)
  else ([.ipStartup true, .setResult true, .setInitialized,
         .setCallbacks ecb fcb, .imStartup, .idStartup], true)

/-- `ih_running ()`: non-locking read of the initialization flag. -/
def ih_running (s : IHState) : Bool :=
  s.initialized

/-- `ih_sub_add (sub)`: asserts `sub` is not already on `sub_list` (`none`
on contract violation), asks the watch backend to start watching (`ipOk` is
its answer), hands the subscription to the missing-path scanner on refusal,
and prepends it to `sub_list`.  Returns the trace and the `gboolean` result
(always `TRUE`). -/
def ih_sub_add (s : IHState) (sub : Nat) (ipOk : Bool) :
    Option (List IHAction × Bool) :=
  if sub ∈ s.sub_list then none
  else if ipOk then
    some ([.ipStartWatching sub true, .listPrepend sub], true)
  else
    some ([.ipStartWatching sub false, .imAdd sub, .listPrepend sub], true)

/-- `ih_sub_cancel (sub)`: no-op if the `cancelled` flag is already set;
otherwise asserts membership in `sub_list` (`none` on contract violation),
sets the flag, detaches from the scanner, asks the backend to stop watching
and removes the subscription from `sub_list`, in that order.  Returns the
trace and the `gboolean` result (always `TRUE`). -/
def ih_sub_cancel (s : IHState) (sub : Nat) :
    Option (List IHAction × Bool) :=
  if sub ∈ s.cancelled then some ([], true)
  else if sub ∈ s.sub_list then
    some ([.setCancelled sub, .imRm sub, .ipStopWatching sub,
           .listRemove sub], true)
  else none

/-- The trace of one `true`-predicate traversal step: the visit, the
actions of the triggered `ih_sub_cancel`, and (in the `_free` variant) the
release of the subscription's memory. -/
def cancelSeg (fr : Bool) (sub : Nat) (acts : List IHAction) :
    List IHAction :=
  IHAction.visit sub true ::
    (acts ++ if fr then [IHAction.subFree sub] else [])

/-- The loop of `ih_sub_foreach_worker`: iterates over the snapshot `l` of
`sub_list`, capturing `next` before invoking the predicate, so cancelling
the current element cannot corrupt the traversal; each predicate invocation
is recorded as a `visit` action, a `true` answer triggers `ih_sub_cancel`
and, when `fr` is set, `ih_sub_free`. -/
def foreachLoop (f : Nat → Bool) (fr : Bool) : IHState → List Nat →
    Option (List IHAction)
  | _, [] => some []
  | s, sub :: rest =>
    if f sub then
      match ih_sub_cancel s sub with
      | none => none
      | some (acts, _) =>
          (foreachLoop f fr (runActs s (cancelSeg fr sub acts)) rest).map
            (fun tr => cancelSeg fr sub acts ++ tr)
    else
      (foreachLoop f fr s rest).map
        (fun tr => IHAction.visit sub false :: tr)

/-- `ih_sub_foreach_worker (callerdata, f, free)`. -/
def ih_sub_foreach_worker (s : IHState) (f : Nat → Bool) (fr : Bool) :
    Option (List IHAction) :=
  foreachLoop f fr s s.sub_list

/-- `ih_sub_foreach (callerdata, f)`. -/
def ih_sub_foreach (s : IHState) (f : Nat → Bool) : Option (List IHAction) :=
  ih_sub_foreach_worker s f false

/-- `ih_sub_foreach_free (callerdata, f)`. -/
def ih_sub_foreach_free (s : IHState) (f : Nat → Bool) :
    Option (List IHAction) :=
  ih_sub_foreach_worker s f true

/-- `ih_event_callback (event, sub)`: rebuilds the full path
(`dirname/name`, or `dirname/` if the event has no name) and forwards it
with the event mask and the user data to the registered event callback. -/
def ih_event_callback (event : IKEvent) (sub : Nat) (info : SubInfo) :
    List IHAction :=
  match event.name with
  | some n =>
      [.callEcb sub (info.dirname ++ "/" ++ n) event.mask info.usersubdata]
  | none => [.callEcb sub (info.dirname ++ "/") event.mask info.usersubdata]

/-- `ih_found_callback (sub)`: with a filename, rebuilds
`dirname/filename` and forwards it to the found callback only if the path
still exists (`fsExists` is the `g_file_test` oracle); without a filename,
forwards `dirname/` unconditionally. -/
def ih_found_callback (fsExists : String → Bool) (sub : Nat)
    (info : SubInfo) : List IHAction :=
  match info.filename with
  | some fn =>
      if fsExists (info.dirname ++ "/" ++ fn) then
        [.callFcb sub (info.dirname ++ "/" ++ fn) info.usersubdata]
      else []
  | none => [.callFcb sub (info.dirname ++ "/") info.usersubdata]

/-- The spec's registry membership invariant, over every subscription the
registry has ever admitted: membership in `sub_list` exactly when the
`cancelled` flag is clear (that is, the lifecycle state is `Watching` or
`Missing`).  `sub_list` is duplicate-free and contains only admitted ids. -/
def RegInv (s : IHState) : Prop :=
  s.sub_list.Nodup ∧
  (∀ x ∈ s.sub_list, x ∈ s.admitted) ∧
  (∀ x ∈ s.admitted, (x ∈ s.sub_list ↔ x ∉ s.cancelled))

instance (s : IHState) : Decidable (RegInv s) := by
  unfold RegInv; infer_instance

/-- Invariant for the callback-safety argument: the collaborator tracking
sets are duplicate-free and never contain a cancelled subscription. -/
def CInv (s : IHState) : Prop :=
  s.imTracked.Nodup ∧ s.ipWatched.Nodup ∧
  (∀ x ∈ s.cancelled, x ∉ s.imTracked ∧ x ∉ s.ipWatched)

instance (s : IHState) : Decidable (CInv s) := by
  unfold CInv; infer_instance

/-- A concrete state with one live subscription, id 5. -/
def cancelDemoState : IHState :=
  { initState with sub_list := [5], admitted := [5] }

/-- A concrete state holding one cancelled subscription, id 3. -/
def cancelledDemoState : IHState :=
  { initState with cancelled := [3], admitted := [3] }

/-- A concrete existence oracle: only the path `/a/f` exists. -/
def demoFs : String → Bool := fun p => p == "/a/f"

/-- A concrete file-level subscription on `/a/f` with user data 7. -/
def demoFileSub : SubInfo := ⟨"/a", some "f", 7⟩

/-- An existence oracle under which no path exists. -/
def demoFsNone : String → Bool := fun _ => false

/-- The trace a foreach traversal produces on a snapshot `l` of live
subscriptions: each one is visited once, in list order; a `true` predicate
answer is followed immediately by the cancellation actions (and by the
release in the `_free` variant), a `false` answer by nothing. -/
def foreachSpecTrace (f : Nat → Bool) (fr : Bool) (l : List Nat) :
    List IHAction :=
  l.flatMap fun sub =>
    if f sub then
      IHAction.visit sub true :: IHAction.setCancelled sub ::
        IHAction.imRm sub :: IHAction.ipStopWatching sub ::
        IHAction.listRemove sub ::
        (if fr then [IHAction.subFree sub] else [])
    else [IHAction.visit sub false]

/-- Number of predicate invocations a trace records for subscription
`sub`. -/
def visitsOf (sub : Nat) (tr : List IHAction) : Nat :=
  tr.countP fun a =>
    match a with
    | .visit x _ => x == sub
    | _ => false

/-- Does this action invoke a user callback on behalf of subscription
`sub`? -/
def isUserCallbackFor (sub : Nat) : IHAction → Bool
  | .callEcb x _ _ _ => x == sub
  | .callFcb x _ _ => x == sub
  | _ => false

/-- One step of the whole system, labelled with its action trace.  The
registry operations step under their contracts (an `ih_sub_add` of a
cancelled subscription is excluded: per the spec's lifecycle a cancelled
subscription is never re-inserted).  Modelled from the spec: the behaviour
of the external collaborators (inotify-path.c, inotify-missing.c) — the
watch backend delivers an event only for a subscription it currently
watches, the scanner reports found (or promotes to watching) only a
subscription it currently tracks. -/
inductive IHStep : IHState → List IHAction → IHState → Prop where
  | startup (s : IHState) (e f : Nat) (ip : Bool) :
      IHStep s (ih_startup s e f ip).1 (runActs s (ih_startup s e f ip).1)
  | subAdd (s : IHState) (sub : Nat) (ip : Bool) (tr : List IHAction)
      (b : Bool) : sub ∉ s.cancelled → ih_sub_add s sub ip = some (tr, b) →
      IHStep s tr (runActs s tr)
  | subCancel (s : IHState) (sub : Nat) (tr : List IHAction) (b : Bool) :
      ih_sub_cancel s sub = some (tr, b) → IHStep s tr (runActs s tr)
  | foreach (s : IHState) (f : Nat → Bool) (tr : List IHAction) :
      ih_sub_foreach s f = some tr → IHStep s tr (runActs s tr)
  | foreachFree (s : IHState) (f : Nat → Bool) (tr : List IHAction) :
      ih_sub_foreach_free s f = some tr → IHStep s tr (runActs s tr)
  | promote (s : IHState) (sub : Nat) :
      sub ∈ s.imTracked →
      IHStep s [IHAction.imRm sub, IHAction.ipStartWatching sub true]
        (runActs s [IHAction.imRm sub, IHAction.ipStartWatching sub true])
  | ipEvent (s : IHState) (sub : Nat) (event : IKEvent) (info : SubInfo) :
      sub ∈ s.ipWatched →
      IHStep s (ih_event_callback event sub info)
        (runActs s (ih_event_callback event sub info))
  | imFound (s : IHState) (sub : Nat) (info : SubInfo)
      (fs : String → Bool) : sub ∈ s.imTracked →
      IHStep s (ih_found_callback fs sub info)
        (runActs s (ih_found_callback fs sub info))

/-- A finite run of the system: the list of the traces of its steps. -/
inductive IHSteps : IHState → List (List IHAction) → IHState → Prop where
  | refl (s : IHState) : IHSteps s [] s
  | cons {s s1 s2 : IHState} {tr : List IHAction}
      {trs : List (List IHAction)} : IHStep s tr s1 → IHSteps s1 trs s2 →
      IHSteps s (tr :: trs) s2

/-- A concrete state with one cancelled subscription (id 3) and one
watched live subscription (id 5). -/
def c7DemoState : IHState :=
  { initState with
      cancelled := [3], ipWatched := [5], sub_list := [5], admitted := [3, 5] }

/-- A concrete state with two live subscriptions, ids 1 and 2. -/
def c4DemoState : IHState :=
  { initState with sub_list := [1, 2], admitted := [1, 2] }

/-- C2: cancelling a not-yet-cancelled subscription that is present in
`sub_list` marks it cancelled and then, in this order, detaches it from the
missing-path scanner, asks the watch backend to stop watching, and removes
it from `sub_list`; if it is absent the assertion fires (contract
violation, modelled as `none`). -/
theorem ih_sub_cancel_effects (s : IHState) (sub : Nat)
    (h : sub ∉ s.cancelled) :
    (sub ∈ s.sub_list →
      ih_sub_cancel s sub =
        some ([.setCancelled sub, .imRm sub, .ipStopWatching sub,
               .listRemove sub], true)) ∧
    (sub ∉ s.sub_list → ih_sub_cancel s sub = none) := by
  constructor <;> intro hm <;> simp [ih_sub_cancel, h, hm]

theorem ih_sub_cancel_effects_witness :
    ih_sub_cancel cancelDemoState 5 =
      some ([.setCancelled 5, .imRm 5, .ipStopWatching 5,
             .listRemove 5], true) :=
  (ih_sub_cancel_effects cancelDemoState 5 (by decide)).1 (by decide)

/-- C3: cancelling an already-cancelled subscription is a no-op: its action
trace is empty — no scanner detach, no backend stop-watching call, no
removal — and running the empty trace leaves the state unchanged. -/
theorem ih_sub_cancel_idempotent (s : IHState) (sub : Nat)
    (h : sub ∈ s.cancelled) :
    ih_sub_cancel s sub = some ([], true) ∧ runActs s [] = s :=
  ⟨by simp [ih_sub_cancel, h], rfl⟩

theorem ih_sub_cancel_idempotent_witness :
    ih_sub_cancel cancelledDemoState 3 = some ([], true) ∧
      runActs cancelledDemoState [] = cancelledDemoState :=
  ih_sub_cancel_idempotent cancelledDemoState 3 (by decide)

/-- C5: admission of a subscription not already present always succeeds
(returns `TRUE`); the subscription ends up at the front of `sub_list`; when
the watch backend accepts, it is watched and never handed to the scanner,
and when the backend declines it is handed to the missing-path scanner. -/
theorem ih_sub_add_effects (s : IHState) (sub : Nat) (ipOk : Bool)
    (h : sub ∉ s.sub_list) :
    ∃ tr, ih_sub_add s sub ipOk = some (tr, true) ∧
      (runActs s tr).sub_list = sub :: s.sub_list ∧
      (ipOk = true → sub ∈ (runActs s tr).ipWatched ∧
        IHAction.imAdd sub ∉ tr) ∧
      (ipOk = false → sub ∈ (runActs s tr).imTracked) := by
  cases ipOk
  · refine ⟨[.ipStartWatching sub false, .imAdd sub, .listPrepend sub],
      by simp [ih_sub_add, h], by simp [runActs, applyAction], ?_, ?_⟩
    · intro hc; cases hc
    · intro _
      simp [runActs, applyAction, List.mem_insert_iff]
  · refine ⟨[.ipStartWatching sub true, .listPrepend sub],
      by simp [ih_sub_add, h], by simp [runActs, applyAction], ?_, ?_⟩
    · intro _
      refine ⟨by simp [runActs, applyAction, List.mem_insert_iff], by simp⟩
    · intro hc; cases hc

theorem ih_sub_add_effects_witness :
    ∃ tr, ih_sub_add initState 4 true = some (tr, true) ∧
      (runActs initState tr).sub_list = 4 :: initState.sub_list ∧
      (true = true → 4 ∈ (runActs initState tr).ipWatched ∧
        IHAction.imAdd 4 ∉ tr) ∧
      (true = false → 4 ∈ (runActs initState tr).imTracked) :=
  ih_sub_add_effects initState 4 true (by decide)

/-- C6: startup idempotence.  In any initialized state a startup call
returns the stored result with an empty action trace (no side effects); and
after a first successful startup the stored result is `TRUE`, so every
subsequent call returns the original result `TRUE` and performs nothing. -/
theorem ih_startup_idempotent (s : IHState) (e f e2 f2 : Nat) (ip2 : Bool)
    (h : s.initialized = false) :
    (∀ (s2 : IHState) (e3 f3 : Nat) (ip3 : Bool), s2.initialized = true →
      ih_startup s2 e3 f3 ip3 = ([], s2.result)) ∧
    (ih_startup s e f true).2 = true ∧
    (runActs s (ih_startup s e f true).1).initialized = true ∧
    ih_startup (runActs s (ih_startup s e f true).1) e2 f2 ip2 =
      ([], (ih_startup s e f true).2) := by
  refine ⟨fun s2 e3 f3 ip3 h2 => by simp [ih_startup, h2], ?_, ?_, ?_⟩ <;>
    simp [ih_startup, h, runActs, applyAction]

theorem ih_startup_idempotent_witness :
    ih_startup (runActs initState (ih_startup initState 1 2 true).1) 8 9 false =
      ([], (ih_startup initState 1 2 true).2) :=
  (ih_startup_idempotent initState 1 2 8 9 false (by decide)).2.2.2

/-- C8: found dispatch.  With a filename, the adapter rebuilds
`dirname/filename` and invokes the found callback with it and the user data
exactly when the path exists at dispatch time; without a filename it
unconditionally invokes the callback with `dirname/`. -/
theorem ih_found_callback_dispatch (fs : String → Bool) (sub : Nat)
    (info : SubInfo) :
    (∀ fn, info.filename = some fn →
      ih_found_callback fs sub info =
        if fs (info.dirname ++ "/" ++ fn) then
          [.callFcb sub (info.dirname ++ "/" ++ fn) info.usersubdata]
        else []) ∧
    (info.filename = none →
      ih_found_callback fs sub info =
        [.callFcb sub (info.dirname ++ "/") info.usersubdata]) := by
  constructor
  · intro fn hfn
    simp [ih_found_callback, hfn]
  · intro hn
    simp [ih_found_callback, hn]

theorem ih_found_callback_dispatch_witness :
    ih_found_callback demoFs 0 demoFileSub =
      if demoFs ("/a" ++ "/" ++ "f") then
        [.callFcb 0 ("/a" ++ "/" ++ "f") 7]
      else [] :=
  (ih_found_callback_dispatch demoFs 0 demoFileSub).1 "f" rfl

/-- C9: event dispatch builds `dirname/name` when the event has a name and
`dirname/` when it does not, and invokes the user event callback exactly
once per incoming event, with the event's mask and the subscription's user
data. -/
theorem ih_event_callback_dispatch (event : IKEvent) (sub : Nat)
    (info : SubInfo) :
    (∀ n, event.name = some n →
      ih_event_callback event sub info =
        [.callEcb sub (info.dirname ++ "/" ++ n) event.mask
          info.usersubdata]) ∧
    (event.name = none →
      ih_event_callback event sub info =
        [.callEcb sub (info.dirname ++ "/") event.mask
          info.usersubdata]) ∧
    (ih_event_callback event sub info).length = 1 := by
  refine ⟨?_, ?_, ?_⟩
  · intro n hn
    simp [ih_event_callback, hn]
  · intro hn
    simp [ih_event_callback, hn]
  · cases hn : event.name <;> simp [ih_event_callback, hn]

theorem ih_event_callback_dispatch_witness :
    ih_event_callback ⟨some "foo", 2⟩ 0 ⟨"/a/b", none, 7⟩ =
      [.callEcb 0 ("/a/b" ++ "/" ++ "foo") 2 7] :=
  (ih_event_callback_dispatch ⟨some "foo", 2⟩ 0 ⟨"/a/b", none, 7⟩).1 "foo" rfl

/-- C10: when the found adapter suppresses the callback (filename present
but the rebuilt path no longer exists) it performs no action at all, so the
cancelled flag, registry membership and both collaborator tracking sets of
every state are left unchanged. -/
theorem ih_found_callback_suppress_frame (fs : String → Bool) (sub : Nat)
    (info : SubInfo) (fn : String) (hfn : info.filename = some fn)
    (hex : fs (info.dirname ++ "/" ++ fn) = false) :
    ih_found_callback fs sub info = [] ∧
    ∀ s : IHState, runActs s (ih_found_callback fs sub info) = s := by
  have h1 : ih_found_callback fs sub info = [] := by
    simp [ih_found_callback, hfn, hex]
  exact ⟨h1, fun s => by rw [h1]; rfl⟩

theorem ih_found_callback_suppress_frame_witness :
    ih_found_callback demoFsNone 0 demoFileSub = [] ∧
    ∀ s : IHState, runActs s (ih_found_callback demoFsNone 0 demoFileSub) = s :=
  ih_found_callback_suppress_frame demoFsNone 0 demoFileSub "f" rfl rfl

theorem runActs_nil (s : IHState) : runActs s [] = s := rfl

theorem runActs_cons (s : IHState) (a : IHAction) (tr : List IHAction) :
    runActs s (a :: tr) = runActs (applyAction s a) tr := rfl

theorem runActs_append (s : IHState) (t1 t2 : List IHAction) :
    runActs s (t1 ++ t2) = runActs (runActs s t1) t2 := by
  simp [runActs]

/-- Shape inversion for `ih_sub_cancel`: on success the trace is either
empty (already cancelled) or exactly the four cancellation actions, and the
`gboolean` result is always `TRUE`. -/
theorem ih_sub_cancel_inv {s : IHState} {sub : Nat} {acts : List IHAction}
    {b : Bool} (h : ih_sub_cancel s sub = some (acts, b)) :
    b = true ∧
    ((sub ∈ s.cancelled ∧ acts = []) ∨
      (sub ∉ s.cancelled ∧ sub ∈ s.sub_list ∧
        acts = [.setCancelled sub, .imRm sub, .ipStopWatching sub,
                .listRemove sub])) := by
  by_cases hc : sub ∈ s.cancelled
  · simp [ih_sub_cancel, hc] at h
    exact ⟨h.2, Or.inl ⟨hc, h.1⟩⟩
  · by_cases hl : sub ∈ s.sub_list
    · simp [ih_sub_cancel, hc, hl] at h
      exact ⟨h.2, Or.inr ⟨hc, hl, h.1.symm⟩⟩
    · simp [ih_sub_cancel, hc, hl] at h

/-- Running the four cancellation actions inserts the subscription into the
cancelled set and erases it from both tracking sets and from
`sub_list`. -/
theorem runActs_cancelActs (s : IHState) (sub : Nat) :
    runActs s [.setCancelled sub, .imRm sub, .ipStopWatching sub,
               .listRemove sub] =
      { s with
          cancelled := s.cancelled.insert sub,
          imTracked := s.imTracked.erase sub,
          ipWatched := s.ipWatched.erase sub,
          sub_list := s.sub_list.erase sub } := rfl

/-- `ih_sub_cancel` preserves the registry membership invariant. -/
theorem regInv_cancel {s : IHState} {sub : Nat} {acts : List IHAction}
    {b : Bool} (hInv : RegInv s) (h : ih_sub_cancel s sub = some (acts, b)) :
    RegInv (runActs s acts) := by
  obtain ⟨hnd, hadm, hmem⟩ := hInv
  rcases (ih_sub_cancel_inv h).2 with ⟨_, rfl⟩ | ⟨hc, hl, rfl⟩
  · exact ⟨hnd, hadm, hmem⟩
  · rw [runActs_cancelActs]
    refine ⟨hnd.erase sub, ?_, ?_⟩
    · intro x hx
      exact hadm x (List.mem_of_mem_erase hx)
    · intro x hx
      rw [hnd.mem_erase_iff, List.mem_insert_iff]
      have := hmem x hx
      by_cases hxs : x = sub
      · subst hxs; tauto
      · tauto

/-- `ih_sub_add` of a not-cancelled subscription preserves the registry
membership invariant. -/
theorem regInv_add {s : IHState} {sub : Nat} {ipOk : Bool}
    {acts : List IHAction} {b : Bool} (hInv : RegInv s)
    (hc : sub ∉ s.cancelled) (h : ih_sub_add s sub ipOk = some (acts, b)) :
    RegInv (runActs s acts) := by
  obtain ⟨hnd, hadm, hmem⟩ := hInv
  by_cases hl : sub ∈ s.sub_list
  · simp [ih_sub_add, hl] at h
  · have key : ∀ t : IHState,
        t.sub_list = sub :: s.sub_list → t.admitted = s.admitted.insert sub →
        t.cancelled = s.cancelled → RegInv t := by
      intro t h1 h2 h3
      refine ⟨?_, ?_, ?_⟩
      · rw [h1]
        exact List.nodup_cons.mpr ⟨hl, hnd⟩
      · intro x hx
        rw [h1] at hx
        rw [h2]
        rcases List.mem_cons.mp hx with rfl | hx2
        · exact List.mem_insert_self x _
        · exact List.mem_insert_of_mem (hadm x hx2)
      · intro x hx
        rw [h2] at hx
        rw [h1, h3]
        rcases List.mem_insert_iff.mp hx with rfl | hx2
        · simp [hc]
        · by_cases hxs : x = sub
          · subst hxs; simp [hc]
          · have := hmem x hx2
            simp only [List.mem_cons]
            tauto
    cases ipOk <;> simp [ih_sub_add, hl] at h <;> obtain ⟨rfl, rfl⟩ := h <;>
      exact key _ rfl rfl rfl

/-- Running a full cancellation segment: cancel effects plus, in the
`_free` variant, the release. -/
theorem runActs_cancelSeg (s : IHState) (sub : Nat) (fr : Bool) :
    runActs s (cancelSeg fr sub
      [.setCancelled sub, .imRm sub, .ipStopWatching sub,
       .listRemove sub]) =
      { s with
          cancelled := s.cancelled.insert sub,
          imTracked := s.imTracked.erase sub,
          ipWatched := s.ipWatched.erase sub,
          sub_list := s.sub_list.erase sub,
          freed := if fr then s.freed.insert sub else s.freed } := by
  cases fr <;> rfl

/-- A cancellation segment first runs the cancel actions and then at most a
memory release. -/
theorem runActs_cancelSeg_split (s : IHState) (sub : Nat) (fr : Bool)
    (acts : List IHAction) :
    runActs s (cancelSeg fr sub acts) =
      runActs (runActs s acts)
        (if fr then [IHAction.subFree sub] else []) := by
  have h1 : runActs s (cancelSeg fr sub acts) =
      runActs (applyAction s (IHAction.visit sub true))
        (acts ++ if fr then [IHAction.subFree sub] else []) := rfl
  rw [h1, runActs_append]
  rfl

/-- The registry membership invariant ignores the `freed` ghost field, so a
trailing release does not disturb it. -/
theorem regInv_after_free {t : IHState} (h : RegInv t) (fr : Bool)
    (sub : Nat) :
    RegInv (runActs t (if fr then [IHAction.subFree sub] else [])) := by
  cases fr
  · exact h
  · exact h

/-- `foreachLoop` preserves the registry membership invariant. -/
theorem regInv_foreachLoop (f : Nat → Bool) (fr : Bool) :
    ∀ (l : List Nat) (s : IHState) (tr : List IHAction), RegInv s →
      foreachLoop f fr s l = some tr → RegInv (runActs s tr)
  | [], s, tr, hInv, h => by
      simp [foreachLoop] at h
      subst h
      exact hInv
  | sub :: rest, s, tr, hInv, h => by
      by_cases hf : f sub = true
      · cases hcan : ih_sub_cancel s sub with
        | none => simp [foreachLoop, hf, hcan] at h
        | some p =>
          obtain ⟨acts, b⟩ := p
          simp only [foreachLoop, hf, hcan, if_true,
            Option.map_eq_some'] at h
          obtain ⟨tr2, hrec, rfl⟩ := h
          rw [runActs_append]
          have h1 : RegInv (runActs s (cancelSeg fr sub acts)) := by
            rw [runActs_cancelSeg_split]
            exact regInv_after_free (regInv_cancel hInv hcan) fr sub
          exact regInv_foreachLoop f fr rest _ tr2 h1 hrec
      · simp only [foreachLoop, if_neg hf, Option.map_eq_some'] at h
        obtain ⟨tr2, hrec, rfl⟩ := h
        have h1 : runActs s (IHAction.visit sub false :: tr2) =
            runActs s tr2 := rfl
        rw [h1]
        exact regInv_foreachLoop f fr rest s tr2 hInv hrec

/-- Closed form of the traversal on a duplicate-free snapshot of live,
not-cancelled subscriptions: it succeeds and produces exactly the spec
trace, one visit per snapshot element in order, each `true` answer followed
immediately by the cancellation (and release) actions. -/
theorem foreachLoop_eq_spec (f : Nat → Bool) (fr : Bool) :
    ∀ (l : List Nat) (s : IHState), l.Nodup →
      (∀ x ∈ l, x ∈ s.sub_list) → (∀ x ∈ l, x ∉ s.cancelled) →
      foreachLoop f fr s l = some (foreachSpecTrace f fr l)
  | [], s, _, _, _ => by
      simp [foreachLoop, foreachSpecTrace]
  | sub :: rest, s, hnd, hsubl, hcanc => by
      obtain ⟨hns, hndr⟩ := List.nodup_cons.mp hnd
      have hsub : sub ∈ s.sub_list := hsubl sub (by simp)
      have hsc : sub ∉ s.cancelled := hcanc sub (by simp)
      by_cases hf : f sub = true
      · have hcan : ih_sub_cancel s sub =
            some ([.setCancelled sub, .imRm sub, .ipStopWatching sub,
                   .listRemove sub], true) := by
          simp [ih_sub_cancel, hsc, hsub]
        have hrec : foreachLoop f fr
            (runActs s (cancelSeg fr sub
              [.setCancelled sub, .imRm sub, .ipStopWatching sub,
               .listRemove sub])) rest =
            some (foreachSpecTrace f fr rest) := by
          apply foreachLoop_eq_spec f fr rest _ hndr
          · intro x hx
            rw [runActs_cancelSeg]
            have hxs : x ≠ sub := fun he => hns (he ▸ hx)
            exact (List.mem_erase_of_ne hxs).mpr (hsubl x (by simp [hx]))
          · intro x hx
            rw [runActs_cancelSeg]
            have hxs : x ≠ sub := fun he => hns (he ▸ hx)
            simp only [List.mem_insert_iff]
            push_neg
            exact ⟨hxs, hcanc x (by simp [hx])⟩
        simp only [foreachLoop, hf, hcan, if_true, hrec, Option.map_some']
        cases fr <;> simp [foreachSpecTrace, cancelSeg, hf]
      · have hrec : foreachLoop f fr s rest =
            some (foreachSpecTrace f fr rest) :=
          foreachLoop_eq_spec f fr rest s hndr
            (fun x hx => hsubl x (by simp [hx]))
            (fun x hx => hcanc x (by simp [hx]))
        simp only [foreachLoop, if_neg hf, hrec, Option.map_some']
        simp only [foreachSpecTrace, List.flatMap_cons]
        rw [if_neg hf]
        rfl

/-- On a duplicate-free snapshot the spec trace visits a subscription
exactly once if it is in the snapshot, never otherwise. -/
theorem visitsOf_foreachSpecTrace (f : Nat → Bool) (fr : Bool) :
    ∀ (l : List Nat), l.Nodup → ∀ sub,
      visitsOf sub (foreachSpecTrace f fr l) = if sub ∈ l then 1 else 0
  | [], _, sub => by
      simp [visitsOf, foreachSpecTrace]
  | x :: rest, hnd, sub => by
      obtain ⟨hxs, hndr⟩ := List.nodup_cons.mp hnd
      have ih := visitsOf_foreachSpecTrace f fr rest hndr sub
      have hsplit : visitsOf sub (foreachSpecTrace f fr (x :: rest)) =
          visitsOf sub (foreachSpecTrace f fr [x]) +
          visitsOf sub (foreachSpecTrace f fr rest) := by
        simp [visitsOf, foreachSpecTrace, List.countP_append]
      have hone : visitsOf sub (foreachSpecTrace f fr [x]) =
          if x = sub then 1 else 0 := by
        by_cases hx : x = sub
        · subst hx
          rcases Bool.eq_false_or_eq_true (f x) with hfx | hfx <;> cases fr <;>
            simp [visitsOf, foreachSpecTrace, hfx, List.countP_cons]
        · rcases Bool.eq_false_or_eq_true (f x) with hfx | hfx <;> cases fr <;>
            simp [visitsOf, foreachSpecTrace, hfx, hx, List.countP_cons]
      rw [hsplit, hone, ih]
      by_cases hx : x = sub
      · subst hx
        simp [hxs]
      · have hsx : ¬sub = x := fun he => hx he.symm
        simp [List.mem_cons, hsx, hx]

/-- C1: registry membership invariant.  In every state satisfying it, each
public operation — admission (of a never-cancelled subscription, per the
spec's lifecycle), cancellation, and both foreach variants — leads to a
state satisfying it again: an admitted subscription is on `sub_list`
exactly when its cancelled flag is clear, i.e. its state is `Watching` or
`Missing`. -/
theorem registry_membership_invariant (s : IHState) (h : RegInv s) :
    (∀ (sub : Nat) (ipOk : Bool) (tr : List IHAction) (b : Bool),
      sub ∉ s.cancelled → ih_sub_add s sub ipOk = some (tr, b) →
      RegInv (runActs s tr)) ∧
    (∀ (sub : Nat) (tr : List IHAction) (b : Bool),
      ih_sub_cancel s sub = some (tr, b) → RegInv (runActs s tr)) ∧
    (∀ (f : Nat → Bool) (tr : List IHAction),
      ih_sub_foreach s f = some tr → RegInv (runActs s tr)) ∧
    (∀ (f : Nat → Bool) (tr : List IHAction),
      ih_sub_foreach_free s f = some tr → RegInv (runActs s tr)) :=
  ⟨fun _ _ _ _ hc hadd => regInv_add h hc hadd,
   fun _ _ _ hcan => regInv_cancel h hcan,
   fun f tr hfe => regInv_foreachLoop f false s.sub_list s tr h hfe,
   fun f tr hfe => regInv_foreachLoop f true s.sub_list s tr h hfe⟩

theorem registry_membership_invariant_witness :
    RegInv (runActs initState
      [IHAction.ipStartWatching 0 true, IHAction.listPrepend 0]) :=
  (registry_membership_invariant initState (by decide)).1 0 true
    [IHAction.ipStartWatching 0 true, IHAction.listPrepend 0] true
    (by decide) rfl

/-- C4: bulk enumeration.  From any state satisfying the registry
invariant, both foreach variants succeed and produce exactly the spec
trace: each subscription of the snapshot is visited exactly once (in
particular at most once, even though a `true` answer removes the current
element during the traversal), a `true` answer is followed immediately by
the cancellation actions — plus the release, in the `_free` variant — and a
`false` answer by no action at all. -/
theorem ih_sub_foreach_traversal (s : IHState) (f : Nat → Bool)
    (h : RegInv s) :
    ih_sub_foreach s f = some (foreachSpecTrace f false s.sub_list) ∧
    ih_sub_foreach_free s f = some (foreachSpecTrace f true s.sub_list) ∧
    (∀ sub, visitsOf sub (foreachSpecTrace f false s.sub_list) =
      if sub ∈ s.sub_list then 1 else 0) ∧
    (∀ sub, visitsOf sub (foreachSpecTrace f true s.sub_list) =
      if sub ∈ s.sub_list then 1 else 0) := by
  obtain ⟨hnd, hadm, hmem⟩ := h
  have hlive : ∀ x ∈ s.sub_list, x ∉ s.cancelled := fun x hx =>
    (hmem x (hadm x hx)).mp hx
  exact ⟨foreachLoop_eq_spec f false s.sub_list s hnd (fun x hx => hx) hlive,
    foreachLoop_eq_spec f true s.sub_list s hnd (fun x hx => hx) hlive,
    fun sub => visitsOf_foreachSpecTrace f false s.sub_list hnd sub,
    fun sub => visitsOf_foreachSpecTrace f true s.sub_list hnd sub⟩

theorem ih_sub_foreach_traversal_witness :
    ih_sub_foreach c4DemoState (fun x => x == 1) =
      some (foreachSpecTrace (fun x => x == 1) false
        c4DemoState.sub_list) :=
  (ih_sub_foreach_traversal c4DemoState (fun x => x == 1) (by decide)).1

/-- No action ever clears a cancelled flag: the cancelled set only
grows. -/
theorem cancelled_mono (tr : List IHAction) :
    ∀ (s : IHState) (x : Nat), x ∈ s.cancelled →
      x ∈ (runActs s tr).cancelled := by
  induction tr with
  | nil => exact fun s x h => h
  | cons a tr ih =>
      intro s x h
      rw [runActs_cons]
      apply ih
      cases a <;> simp [applyAction, List.mem_insert_iff, h]
      case ipStartWatching sub ok => cases ok <;> simp [h]

/-- `ih_sub_cancel` preserves the callback-safety invariant. -/
theorem cinv_cancel {s : IHState} {sub : Nat} {acts : List IHAction}
    {b : Bool} (hInv : CInv s) (h : ih_sub_cancel s sub = some (acts, b)) :
    CInv (runActs s acts) := by
  obtain ⟨hndm, hndw, hmem⟩ := hInv
  rcases (ih_sub_cancel_inv h).2 with ⟨_, rfl⟩ | ⟨hc, hl, rfl⟩
  · exact ⟨hndm, hndw, hmem⟩
  · rw [runActs_cancelActs]
    refine ⟨hndm.erase sub, hndw.erase sub, ?_⟩
    intro x hx
    rcases List.mem_insert_iff.mp hx with rfl | hx2
    · exact ⟨fun hmm => (hndm.mem_erase_iff.mp hmm).1 rfl,
        fun hww => (hndw.mem_erase_iff.mp hww).1 rfl⟩
    · obtain ⟨h1, h2⟩ := hmem x hx2
      exact ⟨fun hmm => h1 (List.mem_of_mem_erase hmm),
        fun hww => h2 (List.mem_of_mem_erase hww)⟩

/-- `ih_sub_add` of a not-cancelled subscription preserves the
callback-safety invariant. -/
theorem cinv_add {s : IHState} {sub : Nat} {ipOk : Bool}
    {acts : List IHAction} {b : Bool} (hInv : CInv s)
    (hc : sub ∉ s.cancelled) (h : ih_sub_add s sub ipOk = some (acts, b)) :
    CInv (runActs s acts) := by
  obtain ⟨hndm, hndw, hmem⟩ := hInv
  by_cases hl : sub ∈ s.sub_list
  · simp [ih_sub_add, hl] at h
  · cases ipOk <;> simp [ih_sub_add, hl] at h <;> obtain ⟨rfl, rfl⟩ := h
    · have e1 : runActs s [IHAction.ipStartWatching sub false,
          IHAction.imAdd sub, IHAction.listPrepend sub] =
          { s with
              imTracked := s.imTracked.insert sub,
              sub_list := sub :: s.sub_list,
              admitted := s.admitted.insert sub } := rfl
      rw [e1]
      refine ⟨hndm.insert, hndw, ?_⟩
      intro x hx
      obtain ⟨h1, h2⟩ := hmem x hx
      refine ⟨?_, h2⟩
      rw [List.mem_insert_iff]
      push_neg
      exact ⟨fun he => hc (he ▸ hx), h1⟩
    · have e1 : runActs s [IHAction.ipStartWatching sub true,
          IHAction.listPrepend sub] =
          { s with
              ipWatched := s.ipWatched.insert sub,
              sub_list := sub :: s.sub_list,
              admitted := s.admitted.insert sub } := rfl
      rw [e1]
      refine ⟨hndm, hndw.insert, ?_⟩
      intro x hx
      obtain ⟨h1, h2⟩ := hmem x hx
      refine ⟨h1, ?_⟩
      rw [List.mem_insert_iff]
      push_neg
      exact ⟨fun he => hc (he ▸ hx), h2⟩

/-- `ih_startup` preserves the callback-safety invariant: its traces touch
only the initialization flag, the stored result and the callback
handles. -/
theorem cinv_startup (s : IHState) (e f : Nat) (ip : Bool)
    (hInv : CInv s) : CInv (runActs s (ih_startup s e f ip).1) := by
  by_cases hi : s.initialized = true
  · simp only [ih_startup, if_pos hi]
    exact hInv
  · cases ip <;> simp only [ih_startup, if_neg hi] <;> exact hInv

/-- The callback-safety invariant ignores the `freed` ghost field. -/
theorem cinv_after_free {t : IHState} (h : CInv t) (fr : Bool)
    (sub : Nat) :
    CInv (runActs t (if fr then [IHAction.subFree sub] else [])) := by
  cases fr
  · exact h
  · exact h

/-- `foreachLoop` preserves the callback-safety invariant. -/
theorem cinv_foreachLoop (f : Nat → Bool) (fr : Bool) :
    ∀ (l : List Nat) (s : IHState) (tr : List IHAction), CInv s →
      foreachLoop f fr s l = some tr → CInv (runActs s tr)
  | [], s, tr, hInv, h => by
      simp [foreachLoop] at h
      subst h
      exact hInv
  | sub :: rest, s, tr, hInv, h => by
      by_cases hf : f sub = true
      · cases hcan : ih_sub_cancel s sub with
        | none => simp [foreachLoop, hf, hcan] at h
        | some p =>
          obtain ⟨acts, b⟩ := p
          simp only [foreachLoop, hf, hcan, if_true,
            Option.map_eq_some'] at h
          obtain ⟨tr2, hrec, rfl⟩ := h
          rw [runActs_append]
          have h1 : CInv (runActs s (cancelSeg fr sub acts)) := by
            rw [runActs_cancelSeg_split]
            exact cinv_after_free (cinv_cancel hInv hcan) fr sub
          exact cinv_foreachLoop f fr rest _ tr2 h1 hrec
      · simp only [foreachLoop, if_neg hf, Option.map_eq_some'] at h
        obtain ⟨tr2, hrec, rfl⟩ := h
        have h1 : runActs s (IHAction.visit sub false :: tr2) =
            runActs s tr2 := rfl
        rw [h1]
        exact cinv_foreachLoop f fr rest s tr2 hInv hrec

/-- The event adapter's trace leaves the registry state unchanged. -/
theorem runActs_event_callback (s : IHState) (event : IKEvent) (sub : Nat)
    (info : SubInfo) :
    runActs s (ih_event_callback event sub info) = s := by
  cases event with
  | mk n m => cases n <;> rfl

/-- The found adapter's trace leaves the registry state unchanged. -/
theorem runActs_found_callback (s : IHState) (fs : String → Bool)
    (sub : Nat) (info : SubInfo) :
    runActs s (ih_found_callback fs sub info) = s := by
  obtain ⟨d, fn, u⟩ := info
  cases fn with
  | none => rfl
  | some f2 =>
      simp only [ih_found_callback]
      split
      · rfl
      · rfl

/-- Every system step preserves the callback-safety invariant. -/
theorem ihStep_cinv {s s2 : IHState} {tr : List IHAction} (hInv : CInv s)
    (h : IHStep s tr s2) : CInv s2 := by
  cases h with
  | startup e f ip => exact cinv_startup s e f ip hInv
  | subAdd sub ip trc b hc hadd => exact cinv_add hInv hc hadd
  | subCancel sub trc b hcan => exact cinv_cancel hInv hcan
  | foreach f =>
      rename_i hfe
      exact cinv_foreachLoop f false s.sub_list s _ hInv hfe
  | foreachFree f =>
      rename_i hfe
      exact cinv_foreachLoop f true s.sub_list s _ hInv hfe
  | promote sub hm =>
      obtain ⟨hndm, hndw, hmem⟩ := hInv
      have e1 : runActs s [IHAction.imRm sub,
          IHAction.ipStartWatching sub true] =
          { s with
              imTracked := s.imTracked.erase sub,
              ipWatched := s.ipWatched.insert sub } := rfl
      rw [e1]
      refine ⟨hndm.erase sub, hndw.insert, ?_⟩
      intro x hx
      obtain ⟨h1, h2⟩ := hmem x hx
      refine ⟨fun hmm => h1 (List.mem_of_mem_erase hmm), ?_⟩
      rw [List.mem_insert_iff]
      push_neg
      exact ⟨fun he => h1 (he ▸ hm), h2⟩
  | ipEvent sub event info hw =>
      rw [runActs_event_callback]
      exact hInv
  | imFound sub info fs hm =>
      rw [runActs_found_callback]
      exact hInv

/-- A cancelled subscription stays cancelled across every system step. -/
theorem ihStep_cancelled_mono {s s2 : IHState} {tr : List IHAction}
    {x : Nat} (hx : x ∈ s.cancelled) (h : IHStep s tr s2) :
    x ∈ s2.cancelled := by
  cases h <;> exact cancelled_mono _ _ _ hx

/-- Membership in the optional release segment. -/
theorem mem_free_opt {a : IHAction} {fr : Bool} {sub : Nat}
    (h : a ∈ (if fr then [IHAction.subFree sub] else [])) :
    a = IHAction.subFree sub := by
  cases fr
  · simp at h
  · simpa using h

/-- Startup traces contain no user-callback invocation. -/
theorem startup_no_cb (s : IHState) (e f : Nat) (ip : Bool) :
    ∀ a ∈ (ih_startup s e f ip).1, ∀ x, isUserCallbackFor x a = false := by
  by_cases hi : s.initialized = true
  · simp [ih_startup, hi]
  · cases ip <;> simp [ih_startup, hi, isUserCallbackFor]

/-- Admission traces contain no user-callback invocation. -/
theorem add_no_cb {s : IHState} {sub : Nat} {ip : Bool}
    {acts : List IHAction} {b : Bool}
    (h : ih_sub_add s sub ip = some (acts, b)) :
    ∀ a ∈ acts, ∀ x, isUserCallbackFor x a = false := by
  by_cases hl : sub ∈ s.sub_list
  · simp [ih_sub_add, hl] at h
  · cases ip <;> simp [ih_sub_add, hl] at h <;> obtain ⟨rfl, rfl⟩ := h <;>
      simp [isUserCallbackFor]

/-- Cancellation traces contain no user-callback invocation. -/
theorem cancelActs_no_cb {s : IHState} {sub : Nat} {acts : List IHAction}
    {b : Bool} (h : ih_sub_cancel s sub = some (acts, b)) :
    ∀ a ∈ acts, ∀ x, isUserCallbackFor x a = false := by
  rcases (ih_sub_cancel_inv h).2 with ⟨_, rfl⟩ | ⟨_, _, rfl⟩ <;>
    simp [isUserCallbackFor]

/-- Foreach traces contain no user-callback invocation. -/
theorem foreachLoop_no_cb (f : Nat → Bool) (fr : Bool) :
    ∀ (l : List Nat) (s : IHState) (tr : List IHAction),
      foreachLoop f fr s l = some tr →
      ∀ a ∈ tr, ∀ x, isUserCallbackFor x a = false
  | [], s, tr, h => by
      simp [foreachLoop] at h
      subst h
      simp
  | sub :: rest, s, tr, h => by
      by_cases hf : f sub = true
      · cases hcan : ih_sub_cancel s sub with
        | none => simp [foreachLoop, hf, hcan] at h
        | some p =>
          obtain ⟨acts, b⟩ := p
          simp only [foreachLoop, hf, hcan, if_true,
            Option.map_eq_some'] at h
          obtain ⟨tr2, hrec, rfl⟩ := h
          have ih := foreachLoop_no_cb f fr rest _ tr2 hrec
          intro a ha x
          rcases List.mem_append.mp ha with hseg | htl
          · rcases List.mem_cons.mp hseg with rfl | h2
            · rfl
            · rcases List.mem_append.mp h2 with h3 | h4
              · exact cancelActs_no_cb hcan a h3 x
              · rw [mem_free_opt h4]
                rfl
          · exact ih a htl x
      · simp only [foreachLoop, if_neg hf, Option.map_eq_some'] at h
        obtain ⟨tr2, hrec, rfl⟩ := h
        have ih := foreachLoop_no_cb f fr rest s tr2 hrec
        intro a ha x
        rcases List.mem_cons.mp ha with rfl | htl
        · rfl
        · exact ih a htl x

/-- No single system step from a state satisfying the callback-safety
invariant invokes a user callback on behalf of a cancelled
subscription. -/
theorem ihStep_no_cb {s s2 : IHState} {tr : List IHAction} {sub : Nat}
    (hInv : CInv s) (hc : sub ∈ s.cancelled) (h : IHStep s tr s2) :
    ∀ a ∈ tr, isUserCallbackFor sub a = false := by
  cases h with
  | startup e f ip =>
      intro a ha
      exact startup_no_cb s e f ip a ha sub
  | subAdd sub2 ip trc b hc2 hadd =>
      intro a ha
      exact add_no_cb hadd a ha sub
  | subCancel sub2 trc b hcan =>
      intro a ha
      exact cancelActs_no_cb hcan a ha sub
  | foreach f =>
      rename_i hfe
      intro a ha
      exact foreachLoop_no_cb f false s.sub_list s _ hfe a ha sub
  | foreachFree f =>
      rename_i hfe
      intro a ha
      exact foreachLoop_no_cb f true s.sub_list s _ hfe a ha sub
  | promote sub2 hm =>
      intro a ha
      rcases List.mem_cons.mp ha with rfl | h2
      · rfl
      · rw [List.mem_singleton.mp h2]
        rfl
  | ipEvent sub2 event info hw =>
      intro a ha
      have hne : sub2 ≠ sub := fun he => (hInv.2.2 sub hc).2 (he ▸ hw)
      cases hev : event.name <;> simp [ih_event_callback, hev] at ha <;>
        subst ha <;> simp [isUserCallbackFor, hne]
  | imFound sub2 info fs hm =>
      intro a ha
      have hne : sub2 ≠ sub := fun he => (hInv.2.2 sub hc).1 (he ▸ hm)
      obtain ⟨d, fn, u⟩ := info
      cases fn with
      | none =>
          simp [ih_found_callback] at ha
          subst ha
          simp [isUserCallbackFor, hne]
      | some f2 =>
          by_cases hex : fs (d ++ "/" ++ f2) = true
          · simp [ih_found_callback, hex] at ha
            subst ha
            simp [isUserCallbackFor, hne]
          · simp [ih_found_callback, hex] at ha

/-- Along any run, no step's trace invokes a user callback on behalf of a
subscription cancelled at the start of the run. -/
theorem ihSteps_no_cb {s s2 : IHState} {trs : List (List IHAction)}
    (h : IHSteps s trs s2) :
    ∀ sub, CInv s → sub ∈ s.cancelled →
      ∀ tr ∈ trs, ∀ a ∈ tr, isUserCallbackFor sub a = false := by
  induction h with
  | refl s => simp
  | cons hstep hrest ih =>
      intro sub hInv hc tr htr a ha
      rcases List.mem_cons.mp htr with rfl | htl
      · exact ihStep_no_cb hInv hc hstep a ha
      · exact ih sub (ihStep_cinv hInv hstep)
          (ihStep_cancelled_mono hc hstep) tr htl a ha

/-- C7: user callbacks are never invoked for a cancelled subscription.
Starting from any state satisfying the callback-safety invariant in which
`sub` is cancelled, no trace of any sequence of registry and collaborator
steps contains a user event- or found-callback invocation on behalf of
`sub`. -/
theorem user_callbacks_never_after_cancel (s s2 : IHState)
    (trs : List (List IHAction)) (sub : Nat) (hInv : CInv s)
    (hc : sub ∈ s.cancelled) (h : IHSteps s trs s2) :
    ∀ tr ∈ trs, ∀ a ∈ tr, isUserCallbackFor sub a = false :=
  ihSteps_no_cb h sub hInv hc

theorem user_callbacks_never_after_cancel_witness :
    isUserCallbackFor 3
      (IHAction.callEcb 5 ("/d" ++ "/" ++ "x") 1 9) = false :=
  user_callbacks_never_after_cancel c7DemoState _ _ 3 (by decide) (by decide)
    (IHSteps.cons
      (IHStep.ipEvent c7DemoState 5 ⟨some "x", 1⟩ ⟨"/d", none, 9⟩
        (by decide))
      (IHSteps.refl _))
    (ih_event_callback ⟨some "x", 1⟩ 5 ⟨"/d", none, 9⟩) (by simp)
    (IHAction.callEcb 5 ("/d" ++ "/" ++ "x") 1 9)
    (by simp [ih_event_callback])
